import Mathlib

/-!
Verification of the natural-language specification of the KlausBenndorf/ol3
repository against its source. The main embedded component is the Mapbox
vector tile (MVT) decoder from `src/dist/ol/format/MVT.js`; the tile-key
codec, resource load state machine and tile cache are modelled from the
spec because only their tests are part of the provided sources.

Conventions of the shallow embedding: the protobuf byte stream is
abstracted to the list of varints the decoder reads in order (the `pbf`
library's `readVarint`/`readSVarint` each consume one entry); JS numbers
holding integer values become `Int`/`Nat`; JS exceptions become
`Except`; JS strings become lists of characters.
-/

namespace OL

/- ### Geometry command stream decoder, `MVT.prototype.readRawGeometry_` -/

/-- Zig-zag decoding as done by `pbf`'s `readSVarint`: an even varint `n`
maps to `n / 2`, an odd one to `-((n + 1) / 2)`. -/
def svarintDecode (n : Nat) : Int :=
  if n % 2 = 1 then -(((n : Int) + 1) / 2) else (n : Int) / 2

/-- Zig-zag encoding, the inverse of `svarintDecode`; used to build
concrete command streams for the theorems. -/
def svarintEncode (i : Int) : Nat :=
  if i < 0 then (-2 * i - 1).toNat else (2 * i).toNat

/-- Result of `readRawGeometry_`: the flat interleaved coordinate buffer
and the `ends` array of exclusive sub-path end offsets. -/
structure RawGeom where
  flat : List Int
  ends : List Nat
  deriving Repr, DecidableEq

/-- Failure modes of the geometry loop. `invalidCommand` is the
`assert(false, 59)` thrown for a command other than 1, 2 or 7
(`InvalidGeometryCommand`); `truncated` models reading coordinate varints
past the end of the stream; `outOfFuel` models the JS loop's genuine
non-termination (a ClosePath command with count 0 followed by more data
never advances the cursor). -/
inductive GeomErr
  | invalidCommand
  | truncated
  | outOfFuel
  deriving Repr, DecidableEq

/-- The `while (pbf.pos < end)` loop of `readRawGeometry_`, one recursive
call per loop iteration. State: remaining varint `tokens`, current
command `cmd`, remaining repetition count `len` (an `Int`, since the JS
`length--` can drive it negative), the running cursor `x y`, the
`flatCoordinates` buffer, the `ends` array, `currentEnd` and `coordsLen`.
When `len = 0` the head token is consumed as a command integer
(`cmd = cmdLen & 7`, `length = cmdLen >> 3`); commands 1 and 2 consume
two zig-zag deltas, with command 1 (MoveTo) first flushing the previous
sub-path's end offset when points were appended since the last boundary;
command 7 (ClosePath) duplicates the first point of the current sub-path
without recording a boundary; anything else fails. After the tokens run
out, a still-open sub-path's end offset is flushed. `fuel` bounds the
iteration count. -/
def readRawGeometryLoop (fuel : Nat) (tokens : List Nat) (cmd : Nat) (len : Int)
    (x y : Int) (flat : List Int) (ends : List Nat) (currentEnd coordsLen : Nat) :
    Except GeomErr RawGeom :=
  match tokens with
  | [] => .ok ⟨flat, if currentEnd < coordsLen then ends ++ [coordsLen] else ends⟩
  | t :: rest =>
    match fuel with
    | 0 => .error .outOfFuel
    | f + 1 =>
      let c := if len = 0 then t % 8 else cmd
      let l : Int := (if len = 0 then ((t / 8 : Nat) : Int) else len) - 1
      let toks := if len = 0 then rest else t :: rest
      if c = 1 ∨ c = 2 then
        match toks with
        | a :: b :: toks2 =>
          let x2 := x + svarintDecode a
          let y2 := y + svarintDecode b
          if c = 1 ∧ currentEnd < coordsLen then
            readRawGeometryLoop f toks2 c l x2 y2 (flat ++ [x2, y2])
              (ends ++ [coordsLen]) coordsLen (coordsLen + 2)
          else
            readRawGeometryLoop f toks2 c l x2 y2 (flat ++ [x2, y2])
              ends currentEnd (coordsLen + 2)
        | _ => .error .truncated
      else if c = 7 then
        if currentEnd < coordsLen then
          readRawGeometryLoop f toks c l x y
            (flat ++ [flat.getD currentEnd 0, flat.getD (currentEnd + 1) 0])
            ends currentEnd (coordsLen + 2)
        else
          readRawGeometryLoop f toks c l x y flat ends currentEnd coordsLen
      else .error .invalidCommand

/-- Entry point of `readRawGeometry_`: state initialised as in the source
(`cmd = 1`, `length = 0`, cursor at the origin, empty buffers). -/
def readRawGeometry (fuel : Nat) (tokens : List Nat) : Except GeomErr RawGeom :=
  readRawGeometryLoop fuel tokens 1 0 0 0 [] [] 0 0

/- ### Structured command blocks and their wire encoding -/

/-- A structured geometry command block: MoveTo and LineTo carry their
decoded deltas, ClosePath its repetition count, and `other` stands for a
command integer with an arbitrary command value (used to build streams
with invalid commands). -/
inductive GeomCmd
  | moveTo (deltas : List (Int × Int))
  | lineTo (deltas : List (Int × Int))
  | closePath (count : Nat)
  | other (cmd : Nat) (count : Nat)
  deriving Repr, DecidableEq

/-- The MVT command integer: command value in the low three bits,
repetition count above. -/
def cmdInteger (cmd count : Nat) : Nat := cmd % 8 + 8 * count

/-- Wire form of a delta list: interleaved zig-zag encoded pairs. -/
def encodeDeltas : List (Int × Int) → List Nat
  | [] => []
  | d :: ds => svarintEncode d.1 :: svarintEncode d.2 :: encodeDeltas ds

/-- Wire form of one command block. -/
def encodeBlock : GeomCmd → List Nat
  | .moveTo ds => cmdInteger 1 ds.length :: encodeDeltas ds
  | .lineTo ds => cmdInteger 2 ds.length :: encodeDeltas ds
  | .closePath k => [cmdInteger 7 k]
  | .other c k => [cmdInteger c k]

/-- Wire form of a block list. -/
def encodeGeom : List GeomCmd → List Nat
  | [] => []
  | b :: bs => encodeBlock b ++ encodeGeom bs

/-- Loop iterations a block costs (one per repetition). -/
def blockCost : GeomCmd → Nat
  | .moveTo ds => ds.length
  | .lineTo ds => ds.length
  | .closePath _ => 1
  | .other _ _ => 1

/-- Iteration count of a block list, used as exact fuel. -/
def geomCost : List GeomCmd → Nat
  | [] => 0
  | b :: bs => blockCost b + geomCost bs

/-- A block the decoder handles uniformly: MoveTo/LineTo with at least
one point, or ClosePath with count exactly 1 (the only count real
encoders emit; other counts make the JS loop's behaviour depend on what
follows the block, count 0 even diverging). -/
def blockWF : GeomCmd → Bool
  | .moveTo ds => !ds.isEmpty
  | .lineTo ds => !ds.isEmpty
  | .closePath k => k = 1
  | .other _ _ => false

/- ### Reference bookkeeping at the level of decoded blocks -/

/-- Loop state at a block boundary, abstracted from the token stream. -/
structure GState where
  x : Int
  y : Int
  flat : List Int
  ends : List Nat
  currentEnd : Nat
  coordsLen : Nat
  deriving Repr, DecidableEq

/-- Effect of decoding one point of a MoveTo (`c = 1`) or LineTo
(`c = 2`) command: the delta is added to the running cursor and the new
absolute point appended; a MoveTo point first records the previous
sub-path's end offset when at least one point was appended since the
last recorded boundary. -/
def applyPoint (c : Nat) (s : GState) (d : Int × Int) : GState :=
  let x2 := s.x + d.1
  let y2 := s.y + d.2
  if c = 1 ∧ s.currentEnd < s.coordsLen then
    ⟨x2, y2, s.flat ++ [x2, y2], s.ends ++ [s.coordsLen], s.coordsLen, s.coordsLen + 2⟩
  else
    ⟨x2, y2, s.flat ++ [x2, y2], s.ends, s.currentEnd, s.coordsLen + 2⟩

/-- Effect of one ClosePath execution: with a non-empty current sub-path
the sub-path's first point is duplicated as its last point; no end
boundary is recorded (that is left to the next MoveTo or the final
flush). -/
def applyClose (s : GState) : GState :=
  if s.currentEnd < s.coordsLen then
    { s with
      flat := s.flat ++ [s.flat.getD s.currentEnd 0, s.flat.getD (s.currentEnd + 1) 0],
      coordsLen := s.coordsLen + 2 }
  else s

/-- Effect of one well-formed block. -/
def applyBlock (s : GState) : GeomCmd → GState
  | .moveTo ds => ds.foldl (applyPoint 1) s
  | .lineTo ds => ds.foldl (applyPoint 2) s
  | .closePath _ => applyClose s
  | .other _ _ => s

/-- Effect of a block list. -/
def runBlocks (s : GState) : List GeomCmd → GState
  | [] => s
  | b :: bs => runBlocks (applyBlock s b) bs

/-- Initial decoder state. -/
def initG : GState := ⟨0, 0, [], [], 0, 0⟩

/-- Final flush: a still-open sub-path's end offset is recorded after
the stream ends. -/
def finishRaw (s : GState) : RawGeom :=
  ⟨s.flat, if s.currentEnd < s.coordsLen then s.ends ++ [s.coordsLen] else s.ends⟩

/- ### Zig-zag round trip -/

theorem svarintDecode_encode (i : Int) : svarintDecode (svarintEncode i) = i := by
  unfold svarintDecode svarintEncode
  by_cases h : i < 0
  · have h2 : (-2 * i - 1).toNat = (-2 * i - 1).toNat := rfl
    simp only [if_pos h]
    have hnn : (0 : Int) ≤ -2 * i - 1 := by omega
    have hcast : ((-2 * i - 1).toNat : Int) = -2 * i - 1 := Int.toNat_of_nonneg hnn
    have hodd : (-2 * i - 1).toNat % 2 = 1 := by omega
    rw [if_pos hodd, hcast]
    omega
  · simp only [if_neg h]
    have hnn : (0 : Int) ≤ 2 * i := by omega
    have hcast : ((2 * i).toNat : Int) = 2 * i := Int.toNat_of_nonneg hnn
    have heven : ¬ (2 * i).toNat % 2 = 1 := by omega
    rw [if_neg heven, hcast]
    omega

/- ### Stepping lemmas: the token-level loop refines the block-level bookkeeping -/

/-- The loop applied to a block-boundary state. -/
def runLoop (fuel : Nat) (tokens : List Nat) (cmd : Nat) (len : Int) (s : GState) :
    Except GeomErr RawGeom :=
  readRawGeometryLoop fuel tokens cmd len s.x s.y s.flat s.ends s.currentEnd s.coordsLen

theorem loop_points (c : Nat) (hc : c = 1 ∨ c = 2) :
    ∀ (ds : List (Int × Int)) (f : Nat) (ts : List Nat) (s : GState),
    runLoop (ds.length + f) (encodeDeltas ds ++ ts) c (ds.length : Int) s
      = runLoop f ts c 0 (ds.foldl (applyPoint c) s) := by
  intro ds
  induction ds with
  | nil =>
    intro f ts s
    simp [encodeDeltas]
  | cons d ds ih =>
    intro f ts s
    have hfu : ds.length + 1 + f = (ds.length + f) + 1 := by omega
    have hne : ((ds.length + 1 : Nat) : Int) ≠ 0 := by exact_mod_cast Nat.succ_ne_zero ds.length
    have hlen : ((ds.length + 1 : Nat) : Int) - 1 = ((ds.length : Nat) : Int) := by push_cast; ring
    simp only [List.length_cons, encodeDeltas, List.cons_append, hfu]
    rw [runLoop, readRawGeometryLoop]
    simp only [if_neg hne, if_pos hc, hlen, svarintDecode_encode]
    by_cases hb : c = 1 ∧ s.currentEnd < s.coordsLen
    · rw [if_pos hb]
      have := ih f ts ⟨s.x + d.1, s.y + d.2, s.flat ++ [s.x + d.1, s.y + d.2],
        s.ends ++ [s.coordsLen], s.coordsLen, s.coordsLen + 2⟩
      rw [runLoop] at this
      simp only at this
      rw [this, List.foldl_cons, applyPoint]
      simp only [if_pos hb]
    · rw [if_neg hb]
      have := ih f ts ⟨s.x + d.1, s.y + d.2, s.flat ++ [s.x + d.1, s.y + d.2],
        s.ends, s.currentEnd, s.coordsLen + 2⟩
      rw [runLoop] at this
      simp only at this
      rw [this, List.foldl_cons, applyPoint]
      simp only [if_neg hb]

theorem loop_blockPoints (c : Nat) (hc : c = 1 ∨ c = 2) (d : Int × Int)
    (ds : List (Int × Int)) (f : Nat) (ts : List Nat) (cmd0 : Nat) (s : GState) :
    runLoop ((d :: ds).length + f)
      (cmdInteger c (d :: ds).length :: encodeDeltas (d :: ds) ++ ts) cmd0 0 s
      = runLoop f ts c 0 ((d :: ds).foldl (applyPoint c) s) := by
  have hfu : (d :: ds).length + f = (ds.length + f) + 1 := by simp; omega
  have hmod : cmdInteger c (d :: ds).length % 8 = c := by
    rcases hc with h | h <;> subst h <;> simp [cmdInteger]
  have hdiv : cmdInteger c (d :: ds).length / 8 = ds.length + 1 := by
    rcases hc with h | h <;> subst h <;> simp [cmdInteger] <;> omega
  have hlen : ((ds.length + 1 : Nat) : Int) - 1 = ((ds.length : Nat) : Int) := by
    push_cast; ring
  rw [hfu, runLoop]
  simp only [List.cons_append]
  rw [readRawGeometryLoop]
  simp only [encodeDeltas, List.cons_append, eq_self_iff_true, if_true, hmod, hdiv, hlen,
    if_pos hc, svarintDecode_encode]
  by_cases hb : c = 1 ∧ s.currentEnd < s.coordsLen
  · rw [if_pos hb]
    have := loop_points c hc ds f ts ⟨s.x + d.1, s.y + d.2, s.flat ++ [s.x + d.1, s.y + d.2],
      s.ends ++ [s.coordsLen], s.coordsLen, s.coordsLen + 2⟩
    rw [runLoop] at this
    simp only at this
    rw [this, List.foldl_cons, applyPoint]
    simp only [if_pos hb]
  · rw [if_neg hb]
    have := loop_points c hc ds f ts ⟨s.x + d.1, s.y + d.2, s.flat ++ [s.x + d.1, s.y + d.2],
      s.ends, s.currentEnd, s.coordsLen + 2⟩
    rw [runLoop] at this
    simp only at this
    rw [this, List.foldl_cons, applyPoint]
    simp only [if_neg hb]

theorem loop_block (b : GeomCmd) (hb : blockWF b = true) (f : Nat) (ts : List Nat)
    (cmd0 : Nat) (s : GState) :
    ∃ c2, runLoop (blockCost b + f) (encodeBlock b ++ ts) cmd0 0 s
      = runLoop f ts c2 0 (applyBlock s b) := by
  cases b with
  | moveTo ds =>
    cases ds with
    | nil => simp [blockWF] at hb
    | cons d ds =>
      exact ⟨1, loop_blockPoints 1 (Or.inl rfl) d ds f ts cmd0 s⟩
  | lineTo ds =>
    cases ds with
    | nil => simp [blockWF] at hb
    | cons d ds =>
      exact ⟨2, loop_blockPoints 2 (Or.inr rfl) d ds f ts cmd0 s⟩
  | closePath k =>
    have hk : k = 1 := by simpa [blockWF] using hb
    subst hk
    refine ⟨7, ?_⟩
    have hfu : blockCost (.closePath 1) + f = f + 1 := by simp [blockCost]; omega
    rw [hfu, runLoop]
    simp only [encodeBlock, List.cons_append, List.nil_append]
    rw [readRawGeometryLoop]
    have hmod : cmdInteger 7 1 % 8 = 7 := by simp [cmdInteger]
    have hdiv : ((cmdInteger 7 1 / 8 : Nat) : Int) - 1 = 0 := by simp [cmdInteger]
    simp only [eq_self_iff_true, if_true, hmod, hdiv]
    have h17 : ¬ ((7 : Nat) = 1 ∨ (7 : Nat) = 2) := by decide
    rw [if_neg h17]
    by_cases hce : s.currentEnd < s.coordsLen
    · rw [if_pos hce, runLoop, applyBlock, applyClose, if_pos hce]
    · rw [if_neg hce, runLoop, applyBlock, applyClose, if_neg hce]
  | other c k => simp [blockWF] at hb

theorem loop_run : ∀ (bs : List GeomCmd), (∀ b ∈ bs, blockWF b = true) →
    ∀ (f : Nat) (ts : List Nat) (cmd0 : Nat) (s : GState),
    ∃ c2, runLoop (geomCost bs + f) (encodeGeom bs ++ ts) cmd0 0 s
      = runLoop f ts c2 0 (runBlocks s bs) := by
  intro bs
  induction bs with
  | nil =>
    intro _ f ts cmd0 s
    exact ⟨cmd0, by simp [geomCost, encodeGeom, runBlocks]⟩
  | cons b bs ih =>
    intro hwf f ts cmd0 s
    have hb := hwf b (List.mem_cons_self b bs)
    have hbs : ∀ b2 ∈ bs, blockWF b2 = true := fun b2 h2 => hwf b2 (List.mem_cons_of_mem b h2)
    have hfu : geomCost (b :: bs) + f = blockCost b + (geomCost bs + f) := by
      simp [geomCost]; omega
    have htk : encodeGeom (b :: bs) ++ ts = encodeBlock b ++ (encodeGeom bs ++ ts) := by
      simp [encodeGeom]
    obtain ⟨c2, h1⟩ := loop_block b hb (geomCost bs + f) (encodeGeom bs ++ ts) cmd0 s
    obtain ⟨c3, h2⟩ := ih hbs f ts c2 (applyBlock s b)
    exact ⟨c3, by rw [hfu, htk, h1, h2, runBlocks]⟩

/-- The geometry loop run on the encoding of a list of well-formed
command blocks computes exactly the block-level bookkeeping
(`applyPoint` / `applyClose` / final flush). -/
theorem readRawGeometry_encode (bs : List GeomCmd) (h : ∀ b ∈ bs, blockWF b = true) :
    readRawGeometry (geomCost bs) (encodeGeom bs)
      = .ok (finishRaw (runBlocks initG bs)) := by
  obtain ⟨c2, heq⟩ := loop_run bs h 0 [] 1 initG
  have h0 : readRawGeometry (geomCost bs) (encodeGeom bs)
      = runLoop (geomCost bs + 0) (encodeGeom bs ++ []) 1 0 initG := by
    simp [readRawGeometry, runLoop, initG]
  rw [h0, heq, runLoop, readRawGeometryLoop, finishRaw]

/- ### Coordinate accumulation: flat coordinates are running prefix sums -/

/-- Running prefix sums of a delta list against a cursor `(x, y)`:
the absolute coordinates the decoder appends. -/
def prefixFlat (x y : Int) : List (Int × Int) → List Int
  | [] => []
  | d :: ds => (x + d.1) :: (y + d.2) :: prefixFlat (x + d.1) (y + d.2) ds

/-- All deltas of a block list, concatenated across block boundaries. -/
def allDeltas : List GeomCmd → List (Int × Int)
  | [] => []
  | .moveTo ds :: bs => ds ++ allDeltas bs
  | .lineTo ds :: bs => ds ++ allDeltas bs
  | _ :: bs => allDeltas bs

/-- A non-empty MoveTo or LineTo block. -/
def coordBlock : GeomCmd → Bool
  | .moveTo ds => !ds.isEmpty
  | .lineTo ds => !ds.isEmpty
  | _ => false

theorem coordBlock_wf {b : GeomCmd} (h : coordBlock b = true) : blockWF b = true := by
  cases b <;> simp_all [coordBlock, blockWF]

theorem prefixFlat_append : ∀ (ds es : List (Int × Int)) (x y : Int),
    prefixFlat x y (ds ++ es)
      = prefixFlat x y ds
        ++ prefixFlat (ds.foldl (fun a d => a + d.1) x) (ds.foldl (fun a d => a + d.2) y) es := by
  intro ds
  induction ds with
  | nil => intro es x y; simp [prefixFlat]
  | cons d ds ih =>
    intro es x y
    simp only [List.cons_append, prefixFlat, List.foldl_cons, List.append_eq, ih]

theorem foldl_applyPoint (c : Nat) : ∀ (ds : List (Int × Int)) (s : GState),
    (ds.foldl (applyPoint c) s).flat = s.flat ++ prefixFlat s.x s.y ds
      ∧ (ds.foldl (applyPoint c) s).x = ds.foldl (fun a d => a + d.1) s.x
      ∧ (ds.foldl (applyPoint c) s).y = ds.foldl (fun a d => a + d.2) s.y := by
  intro ds
  induction ds with
  | nil => intro s; simp [prefixFlat]
  | cons d ds ih =>
    intro s
    have hx : (applyPoint c s d).x = s.x + d.1 := by
      unfold applyPoint; split <;> rfl
    have hy : (applyPoint c s d).y = s.y + d.2 := by
      unfold applyPoint; split <;> rfl
    have hf : (applyPoint c s d).flat = s.flat ++ [s.x + d.1, s.y + d.2] := by
      unfold applyPoint; split <;> rfl
    obtain ⟨ihf, ihx, ihy⟩ := ih (applyPoint c s d)
    refine ⟨?_, ?_, ?_⟩
    · rw [List.foldl_cons, ihf, hf, hx, hy, prefixFlat, List.append_assoc]
      rfl
    · rw [List.foldl_cons, ihx, hx, List.foldl_cons]
    · rw [List.foldl_cons, ihy, hy, List.foldl_cons]

theorem runBlocks_coord : ∀ (bs : List GeomCmd), (∀ b ∈ bs, coordBlock b = true) →
    ∀ (s : GState),
    (runBlocks s bs).flat = s.flat ++ prefixFlat s.x s.y (allDeltas bs)
      ∧ (runBlocks s bs).x = (allDeltas bs).foldl (fun a d => a + d.1) s.x
      ∧ (runBlocks s bs).y = (allDeltas bs).foldl (fun a d => a + d.2) s.y := by
  intro bs
  induction bs with
  | nil => intro _ s; simp [runBlocks, allDeltas, prefixFlat]
  | cons b bs ih =>
    intro h s
    have hb := h b (List.mem_cons_self b bs)
    have hbs : ∀ b2 ∈ bs, coordBlock b2 = true := fun b2 h2 => h b2 (List.mem_cons_of_mem b h2)
    have key : ∀ (c : Nat) (ds : List (Int × Int)), b = .moveTo ds ∨ b = .lineTo ds →
        applyBlock s b = ds.foldl (applyPoint c) s →
        (runBlocks s (b :: bs)).flat = s.flat ++ prefixFlat s.x s.y (allDeltas (b :: bs))
          ∧ (runBlocks s (b :: bs)).x = (allDeltas (b :: bs)).foldl (fun a d => a + d.1) s.x
          ∧ (runBlocks s (b :: bs)).y = (allDeltas (b :: bs)).foldl (fun a d => a + d.2) s.y := by
      intro c ds hbo happ
      have hall : allDeltas (b :: bs) = ds ++ allDeltas bs := by
        rcases hbo with h1 | h1 <;> subst h1 <;> rfl
      obtain ⟨pf, px, py⟩ := foldl_applyPoint c ds s
      obtain ⟨rf, rx, ry⟩ := ih hbs (ds.foldl (applyPoint c) s)
      have hrun : runBlocks s (b :: bs) = runBlocks (ds.foldl (applyPoint c) s) bs := by
        rw [runBlocks, happ]
      refine ⟨?_, ?_, ?_⟩
      · rw [hrun, rf, pf, px, py, hall, prefixFlat_append, List.append_assoc]
      · rw [hrun, rx, px, hall, List.foldl_append]
      · rw [hrun, ry, py, hall, List.foldl_append]
    cases b with
    | moveTo ds => exact key 1 ds (Or.inl rfl) rfl
    | lineTo ds => exact key 2 ds (Or.inr rfl) rfl
    | closePath k => simp [coordBlock] at hb
    | other c k => simp [coordBlock] at hb

/- ### What the claim text says ClosePath does: record the boundary too -/

/-- ClosePath as the spec sentence describes it: duplicate the first
point of the sub-path AND record the end boundary. The source does not
record the boundary here; this definition exists to state that
difference. -/
def applyCloseClaim (s : GState) : GState :=
  if s.currentEnd < s.coordsLen then
    ⟨s.x, s.y,
      s.flat ++ [s.flat.getD s.currentEnd 0, s.flat.getD (s.currentEnd + 1) 0],
      s.ends ++ [s.coordsLen + 2], s.coordsLen + 2, s.coordsLen + 2⟩
  else s

/-- Block semantics under the claim's reading of ClosePath. -/
def applyBlockClaim (s : GState) : GeomCmd → GState
  | .moveTo ds => ds.foldl (applyPoint 1) s
  | .lineTo ds => ds.foldl (applyPoint 2) s
  | .closePath _ => applyCloseClaim s
  | .other _ _ => s

/-- Run of the claim's reading over a block list. -/
def runBlocksClaim (s : GState) : List GeomCmd → GState
  | [] => s
  | b :: bs => runBlocksClaim (applyBlockClaim s b) bs

/- ### Invalid geometry commands -/

/-- A command stream whose next command integer carries a command value
other than 1, 2 or 7 makes the loop fail with `InvalidGeometryCommand`
(the `assert(false, 59)` branch), whatever follows. -/
theorem readRawGeometry_invalid (bs : List GeomCmd) (h : ∀ b ∈ bs, blockWF b = true)
    (c k : Nat) (hc1 : c % 8 ≠ 1) (hc2 : c % 8 ≠ 2) (hc7 : c % 8 ≠ 7)
    (rest : List Nat) :
    readRawGeometry (geomCost bs + 1) (encodeGeom bs ++ cmdInteger c k :: rest)
      = .error .invalidCommand := by
  obtain ⟨c2, heq⟩ := loop_run bs h 1 (cmdInteger c k :: rest) 1 initG
  have h0 : readRawGeometry (geomCost bs + 1) (encodeGeom bs ++ cmdInteger c k :: rest)
      = runLoop (geomCost bs + 1) (encodeGeom bs ++ cmdInteger c k :: rest) 1 0 initG := by
    simp [readRawGeometry, runLoop, initG]
  rw [h0, heq, runLoop, readRawGeometryLoop]
  have hmod : cmdInteger c k % 8 = c % 8 := by unfold cmdInteger; omega
  simp only [eq_self_iff_true, if_true, hmod]
  have hno : ¬ (c % 8 = 1 ∨ c % 8 = 2) := by
    intro hor; rcases hor with h1 | h1 <;> [exact hc1 h1; exact hc2 h1]
  rw [if_neg hno, if_neg hc7]

/- ### Geometry type classification, `getGeometryType` -/

/-- Geometry type constants from `ol/geom/GeometryType`. -/
inductive GeometryType
  | POINT
  | LINE_STRING
  | POLYGON
  | MULTI_POINT
  | MULTI_LINE_STRING
  | MULTI_POLYGON
  deriving Repr, DecidableEq

/-- The `getGeometryType` helper of MVT.js: raw type 1 is POINT for a
single end and MULTI_POINT otherwise, raw type 2 is LINE_STRING or
MULTI_LINE_STRING likewise, raw type 3 is always POLYGON; any other raw
type leaves the result `undefined` (`none`). -/
def getGeometryType (type numEnds : Nat) : Option GeometryType :=
  if type = 1 then
    some (if numEnds = 1 then .POINT else .MULTI_POINT)
  else if type = 2 then
    some (if numEnds = 1 then .LINE_STRING else .MULTI_LINE_STRING)
  else if type = 3 then
    some .POLYGON
  else none

/- ### Polygon splitting by winding order, `createFeature_` -/

/-- Shoelace edge sum `Σ (x2 - x1) * (y2 + y1)` over `n` points of the
flat buffer starting at index `offset`, with `(x1, y1)` seeded from the
ring's last point. -/
def ringEdgeSum (flat : List Int) : Nat → Nat → Int → Int → Int
  | _, 0, _, _ => 0
  | offset, n + 1, x1, y1 =>
    let x2 := flat.getD offset 0
    let y2 := flat.getD (offset + 1) 0
    (x2 - x1) * (y2 + y1) + ringEdgeSum flat (offset + 2) n x2 y2

/-- Modelled from the spec: `linearRingIsClockwise` from
`ol/geom/flat/orient.js` is not among the provided sources; the spec says
ring grouping tests "each ring's signed area / winding order". This is
the standard shoelace test with stride 2: the ring over
`flat[offset..stop)` is clockwise (in the y-up mathematical orientation)
iff the edge sum `Σ (x2 - x1) * (y2 + y1)` is positive, the ring closed
from its last point. In the tile's y-down pixel space a ring that is
clockwise on screen has a negative edge sum, i.e. this function returns
`false` for it. -/
def linearRingIsClockwise (flat : List Int) (offset stop : Nat) : Bool :=
  0 < ringEdgeSum flat offset ((stop - offset) / 2)
    (flat.getD (stop - 2) 0) (flat.getD (stop - 1) 0)

/-- The ring-grouping loop of `createFeature_` (MVT.js lines 194-204):
iterate over `ends` with its index `i`, the ring's start `offset` and
`prevEndIndex`; when a ring is NOT clockwise (y-up), i.e. clockwise in
the tile's y-down space, push `ends.slice(prevEndIndex, i)` and set
`prevEndIndex = i`; always advance `offset` to the ring's end. -/
def polygonEndssAux (flat : List Int) (ends : List Nat) :
    List Nat → Nat → Nat → Nat → List (List Nat) → List (List Nat)
  | [], _, _, _, acc => acc
  | e :: rest, i, offset, prevEndIndex, acc =>
    if ¬ linearRingIsClockwise flat offset e then
      polygonEndssAux flat ends rest (i + 1) e i
        (acc ++ [(ends.drop prevEndIndex).take (i - prevEndIndex)])
    else
      polygonEndssAux flat ends rest (i + 1) e prevEndIndex acc

/-- The `endss` array computed by `createFeature_` for a POLYGON
geometry. -/
def polygonEndss (flat : List Int) (ends : List Nat) : List (List Nat) :=
  polygonEndssAux flat ends ends 0 0 0 []

/-- A geometry built on the explicit-feature-class path of
`createFeature_` for raw type 3. -/
inductive PolyGeom
  | polygon (flat : List Int) (ends : List Nat)
  | multiPolygon (flat : List Int) (endss : List (List Nat))
  deriving Repr, DecidableEq

/-- The POLYGON branch of `createFeature_`: build the ring grouping and
produce a MultiPolygon when it has more than one part, else a Polygon
carrying the original `ends`. -/
def createPolygonGeom (flat : List Int) (ends : List Nat) : PolyGeom :=
  let endss := polygonEndss flat ends
  if endss.length > 1 then .multiPolygon flat endss else .polygon flat ends

/-- Number of rings that open a new part: those clockwise in the tile's
y-down space (`linearRingIsClockwise = false`), walking `ends` with the
running ring start `offset`. -/
def countNewParts (flat : List Int) : Nat → List Nat → Nat
  | _, [] => 0
  | offset, e :: rest =>
    (if ¬ linearRingIsClockwise flat offset e then 1 else 0) + countNewParts flat e rest

/-- The grouping the claim describes: each tile-clockwise ring starts a
new polygon part holding that ring, and each counter-clockwise ring is
appended as a hole to the current (last) part. Stated from the claim's
words, to be compared with `polygonEndss`. -/
def claimPartitionAux (flat : List Int) :
    List Nat → Nat → List (List Nat) → List (List Nat)
  | [], _, acc => acc
  | e :: rest, offset, acc =>
    if ¬ linearRingIsClockwise flat offset e then
      claimPartitionAux flat rest e (acc ++ [[e]])
    else
      claimPartitionAux flat rest e (acc.dropLast ++ [acc.getLastD [] ++ [e]])

/-- Ring partition as claimed: new part at each tile-clockwise ring,
holes appended to the current part. -/
def claimPartition (flat : List Int) (ends : List Nat) : List (List Nat) :=
  claimPartitionAux flat ends 0 []

theorem polygonEndssAux_length (flat : List Int) (ends : List Nat) :
    ∀ (rest : List Nat) (i offset prevEndIndex : Nat) (acc : List (List Nat)),
    (polygonEndssAux flat ends rest i offset prevEndIndex acc).length
      = acc.length + countNewParts flat offset rest := by
  intro rest
  induction rest with
  | nil => intro i offset p acc; simp [polygonEndssAux, countNewParts]
  | cons e rest ih =>
    intro i offset p acc
    rw [polygonEndssAux, countNewParts]
    by_cases hcw : ¬ linearRingIsClockwise flat offset e
    · rw [if_pos hcw, if_pos hcw, ih]
      simp
      omega
    · rw [if_neg hcw, if_neg hcw, ih]
      omega

/-- The number of parts `createFeature_` pushes equals the number of
tile-clockwise rings. -/
theorem polygonEndss_length (flat : List Int) (ends : List Nat) :
    (polygonEndss flat ends).length = countNewParts flat 0 ends := by
  rw [polygonEndss, polygonEndssAux_length]
  simp

/-- Equality of `Except` results is decidable, so concrete decoder runs
can be checked by `decide`. -/
instance {ε α : Type} [DecidableEq ε] [DecidableEq α] : DecidableEq (Except ε α) := fun a b =>
  match a, b with
  | .error e, .error f =>
    if h : e = f then .isTrue (by rw [h]) else .isFalse (by intro hh; cases hh; exact h rfl)
  | .error _, .ok _ => .isFalse (fun h => Except.noConfusion h)
  | .ok _, .error _ => .isFalse (fun h => Except.noConfusion h)
  | .ok a2, .ok b2 =>
    if h : a2 = b2 then .isTrue (by rw [h]) else .isFalse (by intro hh; cases hh; exact h rfl)

/- ### Features and `readFeatures` -/

/-- A raw MVT feature after `readRawFeature`: optional id, geometry type
code (`0` when the record carried none), and the geometry command
stream (abstracted from a byte offset to the token list itself).
Property handling is omitted; it does not affect the claims about
feature decoding. -/
structure RawFeature where
  id : Option Nat
  type : Nat
  geom : List Nat
  deriving Repr, DecidableEq

/-- A parsed layer as stored by `layersPBFReader`: name (opaque,
modelled as a number), extent and its feature records. -/
structure PBFLayer where
  name : Nat
  extent : Nat
  feats : List RawFeature
  deriving Repr, DecidableEq

/-- A decoded feature on the default `RenderFeature` path: geometry
type from `getGeometryType`, flat coordinates, ends and id. -/
inductive Feature
  | render (gt : Option GeometryType) (flat : List Int) (ends : List Nat) (id : Option Nat)
  deriving Repr, DecidableEq

/-- The `createFeature_` method: a raw feature of type 0 yields `null` before any
geometry is read; otherwise the raw geometry is decoded (a thrown
`InvalidGeometryCommand` propagates) and a feature is built. -/
def createFeature (fuel : Nat) (rf : RawFeature) : Except GeomErr (Option Feature) :=
  if rf.type = 0 then .ok none
  else
    match readRawGeometry fuel rf.geom with
    | .error e => .error e
    | .ok g => .ok (some (.render (getGeometryType rf.type g.ends.length) g.flat g.ends rf.id))

/-- A JS `for` loop collecting results, where an exception thrown by the
body aborts the whole loop: the first error wins, otherwise all results
are returned in order. -/
def mapOrErr {α β ε : Type} (f : α → Except ε β) : List α → Except ε (List β)
  | [] => .ok []
  | a :: as =>
    match f a with
    | .error e => .error e
    | .ok b =>
      match mapOrErr f as with
      | .error e => .error e
      | .ok bs => .ok (b :: bs)

/-- The layer filter of `readFeatures`: with `layers_` unset all layers
are read, otherwise only those whose name is listed
(`layers.indexOf(name) != -1`). -/
def selectedLayers (layersOpt : Option (List Nat)) (ls : List PBFLayer) : List PBFLayer :=
  match layersOpt with
  | none => ls
  | some names => ls.filter (fun l => names.contains l.name)

/-- The `MVT.prototype.readFeatures` method: for each selected layer, each feature
record is decoded with `createFeature_` and pushed (`null` included);
there is no `try`/`catch`, so a decoding error aborts the whole call. -/
def readFeatures (fuel : Nat) (layersOpt : Option (List Nat)) (ls : List PBFLayer) :
    Except GeomErr (List (Option Feature)) :=
  match mapOrErr (fun l => mapOrErr (createFeature fuel) l.feats) (selectedLayers layersOpt ls) with
  | .error e => .error e
  | .ok fss => .ok fss.flatten

theorem mapOrErr_forall {α β ε : Type} (f : α → Except ε β) :
    ∀ (xs : List α) (ys : List β), mapOrErr f xs = .ok ys →
    List.Forall₂ (fun x y => f x = .ok y) xs ys := by
  intro xs
  induction xs with
  | nil =>
    intro ys h
    rw [mapOrErr] at h
    cases h
    exact List.Forall₂.nil
  | cons a as ih =>
    intro ys h
    rw [mapOrErr] at h
    cases hf : f a with
    | error e => rw [hf] at h; cases h
    | ok b =>
      rw [hf] at h
      cases hm : mapOrErr f as with
      | error e => rw [hm] at h; cases h
      | ok bs =>
        rw [hm] at h
        cases h
        exact List.Forall₂.cons hf (ih bs hm)

theorem mapOrErr_append_error {α β ε : Type} (f : α → Except ε β)
    (pre : List α) (gs : List β) (hpre : mapOrErr f pre = .ok gs)
    (a : α) (e : ε) (ha : f a = .error e) (post : List α) :
    mapOrErr f (pre ++ a :: post) = .error e := by
  induction pre generalizing gs with
  | nil =>
    rw [List.nil_append, mapOrErr, ha]
  | cons p pre ih =>
    rw [mapOrErr] at hpre
    cases hp : f p with
    | error e2 => rw [hp] at hpre; cases hpre
    | ok b =>
      rw [hp] at hpre
      cases hm : mapOrErr f pre with
      | error e2 => rw [hm] at hpre; cases hpre
      | ok bs =>
        rw [List.cons_append, mapOrErr, hp, ih bs hm]

/- ### Concrete command streams used by several theorems -/

/-- Two rings that are clockwise in the tile's y-down pixel space, as
command blocks: each drawn top-left, top-right, bottom-right,
bottom-left and closed. -/
def bsTwoCW : List GeomCmd :=
  [.moveTo [(0, 0)], .lineTo [(1, 0), (0, 1), (-1, 0)], .closePath 1,
   .moveTo [(3, -1)], .lineTo [(1, 0), (0, 1), (-1, 0)], .closePath 1]

/-- Flat coordinates decoded from `bsTwoCW`. -/
def flatTwoCW : List Int := [0, 0, 1, 0, 1, 1, 0, 1, 0, 0, 3, 0, 4, 0, 4, 1, 3, 1, 3, 0]

/-- A tile-clockwise exterior ring followed by a counter-clockwise
interior ring (a hole). -/
def bsCWHole : List GeomCmd :=
  [.moveTo [(0, 0)], .lineTo [(1, 0), (0, 1), (-1, 0)], .closePath 1,
   .moveTo [(3, -1)], .lineTo [(0, 1), (1, 0), (0, -1)], .closePath 1]

/-- Flat coordinates decoded from `bsCWHole`. -/
def flatCWHole : List Int := [0, 0, 1, 0, 1, 1, 0, 1, 0, 0, 3, 0, 3, 1, 4, 1, 4, 0, 3, 0]

/-- One MoveTo point followed by two ClosePath commands. -/
def bsDoubleClose : List GeomCmd := [.moveTo [(1, 1)], .closePath 1, .closePath 1]

/-- MoveTo, LineTo, ClosePath, MoveTo: exercises the cursor across a
ring closure and a sub-path boundary. -/
def bsAcross : List GeomCmd :=
  [.moveTo [(2, 3)], .lineTo [(1, 1)], .closePath 1, .moveTo [(4, 5)]]

/- ### Claim C1 -/

/-- Claim C1, counterexample: on two consecutive tile-clockwise rings
(ends `[10, 20]`), `createFeature_`'s grouping pushes `[[], [10]]` — an
empty first part, and no part containing the second ring — while the
claimed partition (each clockwise ring starts the part that holds it,
holes appended to it) is `[[10], [20]]`. The rings delimited by `ends`
are NOT partitioned into the pushed parts. -/
theorem polygon_split_claim_cx :
    polygonEndss flatTwoCW [10, 20] = [[], [10]]
      ∧ claimPartition flatTwoCW [10, 20] = [[10], [20]]
      ∧ polygonEndss flatTwoCW [10, 20] ≠ claimPartition flatTwoCW [10, 20] := by
  refine ⟨by decide, by decide, by decide⟩

/-- Claim C1 (amended): in the ring grouping of `createFeature_` a new
part is pushed exactly at each ring that is clockwise in the tile's
y-down space, holding the end offsets accumulated since the previous
such ring (so the parts lag one polygon behind: the first pushed part is
empty and the rings from the last clockwise ring onward are in no pushed
part); hence the number of parts equals the number of clockwise rings,
and in particular two consecutive clockwise rings decode to a
MULTI_POLYGON with two parts, while one clockwise exterior ring followed
by one counter-clockwise interior ring decodes to a single POLYGON whose
`ends` has length 2. -/
theorem polygon_split_winding :
    (∀ (flat : List Int) (ends : List Nat),
      (polygonEndss flat ends).length = countNewParts flat 0 ends)
      ∧ readRawGeometry (geomCost bsTwoCW) (encodeGeom bsTwoCW) = .ok ⟨flatTwoCW, [10, 20]⟩
      ∧ createPolygonGeom flatTwoCW [10, 20] = .multiPolygon flatTwoCW [[], [10]]
      ∧ (polygonEndss flatTwoCW [10, 20]).length = 2
      ∧ readRawGeometry (geomCost bsCWHole) (encodeGeom bsCWHole) = .ok ⟨flatCWHole, [10, 20]⟩
      ∧ createPolygonGeom flatCWHole [10, 20] = .polygon flatCWHole [10, 20]
      ∧ ([10, 20] : List Nat).length = 2 := by
  refine ⟨polygonEndss_length, by decide, by decide, by decide, by decide, by decide, rfl⟩

/- ### Claim C3 -/

/-- Claim C3, counterexample: on MoveTo (1,1) followed by two ClosePath
commands, the source records no end boundary at ClosePath, so the
second ClosePath still sees a non-empty sub-path and duplicates the
first point again: the result is flat `[1,1,1,1,1,1]` with ends `[6]`,
whereas the claim's bookkeeping (ClosePath records the boundary) gives
flat `[1,1,1,1]` with ends `[4]`. -/
theorem ends_bookkeeping_claim_cx :
    readRawGeometry 3 (encodeGeom bsDoubleClose) = .ok ⟨[1, 1, 1, 1, 1, 1], [6]⟩
      ∧ finishRaw (runBlocksClaim initG bsDoubleClose) = ⟨[1, 1, 1, 1], [4]⟩
      ∧ readRawGeometry 3 (encodeGeom bsDoubleClose)
          ≠ .ok (finishRaw (runBlocksClaim initG bsDoubleClose)) := by
  refine ⟨by decide, by decide, by decide⟩

/-- Claim C3 (amended): for every well-formed command stream the
decoder's end bookkeeping is exactly `applyPoint`/`applyClose` plus the
final flush: a MoveTo point records the previous sub-path's end offset
when at least one point was appended since the last boundary; ClosePath
with a non-empty current sub-path duplicates the sub-path's first point
as its last point but records no boundary (that is done by the next
MoveTo or the final flush); after the stream ends a still-open sub-path
has its end offset flushed. -/
theorem ends_bookkeeping (bs : List GeomCmd) (h : ∀ b ∈ bs, blockWF b = true) :
    readRawGeometry (geomCost bs) (encodeGeom bs)
      = .ok (finishRaw (runBlocks initG bs)) :=
  readRawGeometry_encode bs h

/-- Witness for `ends_bookkeeping` at a ring with a hole. -/
theorem ends_bookkeeping_witness :
    (∀ b ∈ bsCWHole, blockWF b = true)
      ∧ readRawGeometry (geomCost bsCWHole) (encodeGeom bsCWHole)
          = .ok (finishRaw (runBlocks initG bsCWHole)) :=
  ⟨by decide, ends_bookkeeping bsCWHole (by decide)⟩

/- ### Claim C8 -/

/-- Claim C8: every decoded coordinate pair is the zig-zag decoded delta
added to a running cursor started at `(0, 0)` and never reset: over any
stream of MoveTo/LineTo blocks the flat buffer is the prefix-sum list of
all deltas concatenated across block boundaries, and concretely the
cursor also carries across a ClosePath (stream `bsAcross` decodes to
`[2,3, 3,4, 2,3, 7,9]`: the second MoveTo lands at `(3,4) + (4,5)`,
unaffected by the closure's duplicated point). -/
theorem cursor_accumulation :
    (∀ (bs : List GeomCmd), (∀ b ∈ bs, coordBlock b = true) →
      (readRawGeometry (geomCost bs) (encodeGeom bs)).map RawGeom.flat
        = .ok (prefixFlat 0 0 (allDeltas bs)))
      ∧ readRawGeometry (geomCost bsAcross) (encodeGeom bsAcross)
          = .ok ⟨[2, 3, 3, 4, 2, 3, 7, 9], [6, 8]⟩ := by
  constructor
  · intro bs h
    have hwf : ∀ b ∈ bs, blockWF b = true := fun b hb => coordBlock_wf (h b hb)
    rw [readRawGeometry_encode bs hwf]
    have hflat := (runBlocks_coord bs h initG).1
    rw [Except.map, finishRaw, hflat]
    simp [initG]
  · decide

/-- Witness for the quantified part of `cursor_accumulation`. -/
theorem cursor_accumulation_witness :
    (∀ b ∈ [GeomCmd.moveTo [(1, 2)], GeomCmd.lineTo [(3, 4)], GeomCmd.moveTo [(5, 6)]],
      coordBlock b = true)
      ∧ (readRawGeometry
          (geomCost [GeomCmd.moveTo [(1, 2)], GeomCmd.lineTo [(3, 4)], GeomCmd.moveTo [(5, 6)]])
          (encodeGeom [GeomCmd.moveTo [(1, 2)], GeomCmd.lineTo [(3, 4)], GeomCmd.moveTo [(5, 6)]])).map
          RawGeom.flat
        = .ok (prefixFlat 0 0
            (allDeltas [GeomCmd.moveTo [(1, 2)], GeomCmd.lineTo [(3, 4)], GeomCmd.moveTo [(5, 6)]])) :=
  ⟨by decide,
    cursor_accumulation.1 [GeomCmd.moveTo [(1, 2)], GeomCmd.lineTo [(3, 4)], GeomCmd.moveTo [(5, 6)]]
      (by decide)⟩

/- ### Claim C2 -/

/-- A point feature whose geometry is a single MoveTo. -/
def goodFeat : RawFeature := ⟨none, 1, encodeGeom [.moveTo [(1, 1)]]⟩

/-- A feature whose geometry stream carries command value 3. -/
def badFeat : RawFeature := ⟨none, 2, [cmdInteger 3 1]⟩

/-- A layer with a corrupt feature between two good ones. -/
def corruptLayer : PBFLayer := ⟨0, 4096, [goodFeat, badFeat, goodFeat]⟩

/-- Claim C2, counterexample: on a tile whose middle feature carries an
invalid geometry command, `readFeatures` returns the error — the two
good features are NOT decoded and returned, contrary to the claim that
only the corrupt feature is lost. -/
theorem invalid_command_cx :
    readFeatures 3 none [corruptLayer] = .error .invalidCommand
      ∧ (readFeatures 3 none [corruptLayer]).toOption = none := by
  refine ⟨by decide, by decide⟩

/-- Claim C2 (amended): a command value other than 1, 2 or 7 makes the
geometry decoder fail with `InvalidGeometryCommand`, and since
`readFeatures` has no `try`/`catch` around `createFeature_`, the error
propagates out of `readFeatures`: the whole tile's decode fails and no
features (not even the intact ones) are returned. -/
theorem invalid_command_aborts_tile :
    (∀ (bs : List GeomCmd), (∀ b ∈ bs, blockWF b = true) →
      ∀ (c k : Nat), c % 8 ≠ 1 → c % 8 ≠ 2 → c % 8 ≠ 7 → ∀ (rest : List Nat),
      readRawGeometry (geomCost bs + 1) (encodeGeom bs ++ cmdInteger c k :: rest)
        = .error .invalidCommand)
      ∧ (∀ (fuel nm ext : Nat) (pre post : List RawFeature) (gs : List (Option Feature))
          (rf : RawFeature) (e : GeomErr),
          mapOrErr (createFeature fuel) pre = .ok gs →
          createFeature fuel rf = .error e →
          readFeatures fuel none [⟨nm, ext, pre ++ rf :: post⟩] = .error e) := by
  constructor
  · intro bs h c k hc1 hc2 hc7 rest
    exact readRawGeometry_invalid bs h c k hc1 hc2 hc7 rest
  · intro fuel nm ext pre post gs rf e hpre herr
    have hl : mapOrErr (createFeature fuel) (pre ++ rf :: post) = .error e :=
      mapOrErr_append_error _ pre gs hpre rf e herr post
    rw [readFeatures, selectedLayers, mapOrErr]
    simp only [hl]

/-- Witness for `invalid_command_aborts_tile`: one good feature before
and after the corrupt one. -/
theorem invalid_command_witness :
    (mapOrErr (createFeature 3) [goodFeat]
        = .ok [some (Feature.render (some .POINT) [1, 1] [2] none)])
      ∧ createFeature 3 badFeat = .error .invalidCommand
      ∧ readFeatures 3 none [⟨0, 4096, [goodFeat] ++ badFeat :: [goodFeat]⟩]
          = .error .invalidCommand :=
  ⟨by decide, by decide,
    invalid_command_aborts_tile.2 3 0 4096 [goodFeat] [goodFeat]
      [some (Feature.render (some .POINT) [1, 1] [2] none)] badFeat .invalidCommand
      (by decide) (by decide)⟩

/- ### Claim C10 -/

/-- All raw feature records of the selected layers, in decode order. -/
def allSelectedFeats (layersOpt : Option (List Nat)) (ls : List PBFLayer) : List RawFeature :=
  ((selectedLayers layersOpt ls).map PBFLayer.feats).flatten

theorem forall₂_flatten {α β γ : Type} (R : α → β → Prop) (g : γ → List α) :
    ∀ (ls : List γ) (fss : List (List β)),
    List.Forall₂ (fun l fs2 => List.Forall₂ R (g l) fs2) ls fss →
    List.Forall₂ R (ls.map g).flatten fss.flatten := by
  intro ls
  induction ls with
  | nil =>
    intro fss h
    cases h
    exact List.Forall₂.nil
  | cons l ls ih =>
    intro fss h
    cases h with
    | cons hh ht =>
      simp only [List.map_cons, List.flatten_cons]
      exact List.rel_append hh (ih _ ht)

theorem forall₂_getD {α β : Type} (R : α → β → Prop) (da : α) (db : β) :
    ∀ (xs : List α) (ys : List β), List.Forall₂ R xs ys →
    ∀ i, i < xs.length → R (xs.getD i da) (ys.getD i db) := by
  intro xs
  induction xs with
  | nil => intro ys h i hi; simp at hi
  | cons x xs ih =>
    intro ys h i hi
    cases h with
    | cons hxy ht =>
      cases i with
      | zero => simpa using hxy
      | succ j =>
        simp only [List.getD_cons_succ]
        exact ih _ ht j (by simpa using hi)

theorem createFeature_ok_none_iff (fuel : Nat) (rf : RawFeature) (y : Option Feature)
    (h : createFeature fuel rf = .ok y) : y = none ↔ rf.type = 0 := by
  constructor
  · intro hy
    subst hy
    by_contra ht
    rw [createFeature, if_neg ht] at h
    cases hrr : readRawGeometry fuel rf.geom with
    | error e => rw [hrr] at h; cases h
    | ok g => rw [hrr] at h; simp at h
  · intro ht
    rw [createFeature, if_pos ht] at h
    injection h with h2
    exact h2.symm

/-- Claim C10: when `readFeatures` succeeds, its result has exactly one
entry per feature record of the selected layers (nothing is skipped),
and an entry is `null` precisely for the records whose geometry type
code is 0, for which `createFeature_` returns `null` that is pushed
as-is. -/
theorem type0_features_null (fuel : Nat) (layersOpt : Option (List Nat))
    (ls : List PBFLayer) (fs : List (Option Feature))
    (h : readFeatures fuel layersOpt ls = .ok fs) :
    fs.length = (allSelectedFeats layersOpt ls).length
      ∧ ∀ i, i < fs.length →
        (fs.getD i none = none
          ↔ ((allSelectedFeats layersOpt ls).getD i ⟨none, 1, []⟩).type = 0) := by
  rw [readFeatures] at h
  cases hm : mapOrErr (fun l => mapOrErr (createFeature fuel) l.feats)
      (selectedLayers layersOpt ls) with
  | error e => rw [hm] at h; cases h
  | ok fss =>
    rw [hm] at h
    injection h with h2
    subst h2
    have h3 := (mapOrErr_forall _ _ _ hm).imp
      (fun l fs2 hlf => mapOrErr_forall (createFeature fuel) l.feats fs2 hlf)
    have h4 := forall₂_flatten (fun rf y => createFeature fuel rf = .ok y)
      PBFLayer.feats _ _ h3
    have hlen := List.Forall₂.length_eq h4
    rw [allSelectedFeats]
    constructor
    · exact hlen.symm
    · intro i hi
      have hrel := forall₂_getD (fun rf y => createFeature fuel rf = .ok y)
        (⟨none, 1, []⟩ : RawFeature) none _ _ h4 i (by rw [hlen]; exact hi)
      exact createFeature_ok_none_iff fuel _ _ hrel

/-- A feature record with geometry type code 0. -/
def typelessFeat : RawFeature := ⟨none, 0, []⟩

/-- Witness for `type0_features_null`: one type-0 record followed by a
point feature decodes to `[null, feature]` of length 2. -/
theorem type0_features_null_witness :
    readFeatures 3 none [⟨0, 4096, [typelessFeat, goodFeat]⟩]
        = .ok [none, some (Feature.render (some .POINT) [1, 1] [2] none)]
      ∧ ([none, some (Feature.render (some .POINT) [1, 1] [2] none)].length
          = (allSelectedFeats none [⟨0, 4096, [typelessFeat, goodFeat]⟩]).length
        ∧ ∀ i, i < [none, some (Feature.render (some .POINT) [1, 1] [2] none)].length →
          ([none, some (Feature.render (some .POINT) [1, 1] [2] none)].getD i none = none
            ↔ ((allSelectedFeats none [⟨0, 4096, [typelessFeat, goodFeat]⟩]).getD i
                ⟨none, 1, []⟩).type = 0)) :=
  ⟨by decide,
    type0_features_null 3 none [⟨0, 4096, [typelessFeat, goodFeat]⟩]
      [none, some (Feature.render (some .POINT) [1, 1] [2] none)] (by decide)⟩

/- ### Claim C9: layer value records, `layerPBFReader` tag 4 -/

/-- A typed property value as decoded by the tag dispatch in
`layerPBFReader` (tag 4). String, float and double payloads are kept as
their opaque wire payloads (their internal structure plays no role
here); varints, zig-zag varints and booleans are decoded. -/
inductive TypedValue
  | vstring (raw : Nat)
  | vfloat (raw : Nat)
  | vdouble (raw : Nat)
  | vuint64 (n : Nat)
  | vuint (n : Nat)
  | vsint (i : Int)
  | vbool (b : Bool)
  deriving Repr, DecidableEq

/-- One field of a value record: `value = tag === 1 ? readString() :
... : tag === 7 ? readBoolean() : null`. An unrecognized tag yields
`null` (`none`). -/
def readValueField (tag payload : Nat) : Option TypedValue :=
  if tag = 1 then some (.vstring payload)
  else if tag = 2 then some (.vfloat payload)
  else if tag = 3 then some (.vdouble payload)
  else if tag = 4 then some (.vuint64 payload)
  else if tag = 5 then some (.vuint payload)
  else if tag = 6 then some (.vsint (svarintDecode payload))
  else if tag = 7 then some (.vbool (payload ≠ 0))
  else none

/-- The `while (pbf.pos < end)` loop over a value record's fields:
`value` starts as `null` and is reassigned by every field, so the last
field wins. -/
def readValueRecord (fields : List (Nat × Nat)) : Option TypedValue :=
  fields.foldl (fun _ f => readValueField f.1 f.2) none

/-- A field of a layer record, by its wire tag: 15 version, 1 name,
5 extent, 2 a feature record (only its offset is kept), 3 a key,
4 a value record. -/
inductive LayerField
  | version (n : Nat)
  | lname (n : Nat)
  | extent (n : Nat)
  | feat (offset : Nat)
  | key (k : Nat)
  | value (fields : List (Nat × Nat))
  deriving Repr, DecidableEq

/-- The layer object accumulated by `layerPBFReader`. -/
structure LayerBuild where
  version : Nat
  name : Nat
  extent : Nat
  featureOffsets : List Nat
  keys : List Nat
  values : List (Option TypedValue)
  deriving Repr, DecidableEq

/-- One step of `layerPBFReader`: each field updates the layer; a value
record is decoded with `readValueRecord` and its (possibly `null`)
result is pushed onto `values`. -/
def layerApplyField (l : LayerBuild) : LayerField → LayerBuild
  | .version n => { l with version := n }
  | .lname n => { l with name := n }
  | .extent n => { l with extent := n }
  | .feat off => { l with featureOffsets := l.featureOffsets ++ [off] }
  | .key k => { l with keys := l.keys ++ [k] }
  | .value fs => { l with values := l.values ++ [readValueRecord fs] }

/-- The `pbf.readFields(layerPBFReader, layer, end)` call: fold over the layer's
fields. -/
def layerReadFields (l : LayerBuild) : List LayerField → LayerBuild
  | [] => l
  | f :: rest => layerReadFields (layerApplyField l f) rest

/-- Claim C9: a value record whose (last) field carries a tag outside
{1,...,7} decodes to a `null` value rather than failing, and the layer
fold simply pushes that `null` and continues with the remaining layer
fields. -/
theorem unknown_value_tag_null (tag : Nat)
    (h1 : tag ≠ 1) (h2 : tag ≠ 2) (h3 : tag ≠ 3) (h4 : tag ≠ 4)
    (h5 : tag ≠ 5) (h6 : tag ≠ 6) (h7 : tag ≠ 7) :
    (∀ (fs : List (Nat × Nat)) (payload : Nat),
      readValueRecord (fs ++ [(tag, payload)]) = none)
      ∧ (∀ (fs : List (Nat × Nat)) (payload : Nat) (l : LayerBuild) (rest : List LayerField),
        layerReadFields l (.value (fs ++ [(tag, payload)]) :: rest)
          = layerReadFields { l with values := l.values ++ [none] } rest) := by
  have hfield : ∀ payload, readValueField tag payload = none := by
    intro payload
    rw [readValueField, if_neg h1, if_neg h2, if_neg h3, if_neg h4, if_neg h5,
      if_neg h6, if_neg h7]
  have hrec : ∀ (fs : List (Nat × Nat)) (payload : Nat),
      readValueRecord (fs ++ [(tag, payload)]) = none := by
    intro fs payload
    rw [readValueRecord, List.foldl_append, List.foldl_cons, List.foldl_nil]
    exact hfield payload
  refine ⟨hrec, ?_⟩
  intro fs payload l rest
  rw [layerReadFields, layerApplyField, hrec fs payload]

/-- Witness for `unknown_value_tag_null` at tag 9, after a recognized
string field (the `null` of the unrecognized last field wins). -/
theorem unknown_value_tag_null_witness :
    readValueRecord [(1, 5), (9, 77)] = none
      ∧ layerReadFields ⟨0, 0, 0, [], [], []⟩ [.value [(1, 5), (9, 77)]]
          = ⟨0, 0, 0, [], [], [none]⟩ := by
  have h := unknown_value_tag_null 9 (by decide) (by decide) (by decide) (by decide)
    (by decide) (by decide) (by decide)
  refine ⟨h.1 [(1, 5)] 77, ?_⟩
  rw [show ([(1, 5), (9, 77)] : List (Nat × Nat)) = [(1, 5)] ++ [(9, 77)] from rfl] at *
  rw [h.2 [(1, 5)] 77 ⟨0, 0, 0, [], [], []⟩ []]
  decide

/- ### Claim C5: tile coordinate key codec (modelled from the spec) -/

/-- Decimal digit character. -/
def digitChar (d : Nat) : Char :=
  match d with
  | 0 => '0' | 1 => '1' | 2 => '2' | 3 => '3' | 4 => '4'
  | 5 => '5' | 6 => '6' | 7 => '7' | 8 => '8' | _ => '9'

/-- Test for a decimal digit character. -/
def isDigitC (c : Char) : Bool := 48 ≤ c.toNat && c.toNat ≤ 57

/-- Numeric value of a digit character. -/
def digitVal (c : Char) : Nat := c.toNat - 48

/-- Decimal digits of a natural number, most significant first. -/
def natChars (n : Nat) : List Char :=
  if n < 10 then [digitChar n]
  else natChars (n / 10) ++ [digitChar (n % 10)]
termination_by n
decreasing_by exact Nat.div_lt_self (by omega) (by norm_num)

theorem digitChar_isDigit (d : Nat) (h : d < 10) : isDigitC (digitChar d) = true := by
  interval_cases d <;> decide

theorem digitVal_digitChar (d : Nat) (h : d < 10) : digitVal (digitChar d) = d := by
  interval_cases d <;> decide

theorem natChars_all_digits : ∀ n, ∀ c ∈ natChars n, isDigitC c = true := by
  intro n
  induction n using Nat.strong_induction_on with
  | _ n ih =>
    rw [natChars]
    split
    · intro c hc
      rw [List.mem_singleton] at hc
      subst hc
      exact digitChar_isDigit n (by omega)
    · intro c hc
      rcases List.mem_append.mp hc with h1 | h1
      · exact ih (n / 10) (Nat.div_lt_self (by omega) (by norm_num)) c h1
      · rw [List.mem_singleton] at h1
        subst h1
        exact digitChar_isDigit (n % 10) (Nat.mod_lt _ (by norm_num))

theorem natChars_ne_nil (n : Nat) : natChars n ≠ [] := by
  rw [natChars]
  split
  · exact List.cons_ne_nil _ _
  · exact List.append_ne_nil_of_right_ne_nil _ (List.cons_ne_nil _ _)

theorem foldl_natChars (n : Nat) :
    ∀ a, (natChars n).foldl (fun a c => a * 10 + digitVal c) a
      = a * 10 ^ (natChars n).length + n := by
  induction n using Nat.strong_induction_on with
  | _ n ih =>
    intro a
    rw [natChars]
    split
    · rename_i h
      rw [List.foldl_cons, List.foldl_nil, digitVal_digitChar n h]
      simp
    · rename_i h
      rw [List.foldl_append, List.foldl_cons, List.foldl_nil,
        ih (n / 10) (Nat.div_lt_self (by omega) (by norm_num)) a,
        digitVal_digitChar (n % 10) (Nat.mod_lt _ (by norm_num))]
      rw [List.length_append, List.length_singleton, pow_succ]
      have := Nat.div_add_mod n 10
      ring_nf
      omega

/-- Parse an unsigned decimal numeral: fails on an empty or non-digit
string. -/
def parseNatChars (cs : List Char) : Option Nat :=
  if !cs.isEmpty && cs.all isDigitC then
    some (cs.foldl (fun a c => a * 10 + digitVal c) 0)
  else none

theorem parseNatChars_natChars (n : Nat) : parseNatChars (natChars n) = some n := by
  rw [parseNatChars]
  have h1 : (natChars n).isEmpty = false := by
    cases h : natChars n with
    | nil => exact absurd h (natChars_ne_nil n)
    | cons c cs => rfl
  have h2 : (natChars n).all isDigitC = true :=
    List.all_eq_true.mpr (natChars_all_digits n)
  rw [h1, h2]
  simp only [Bool.not_false, Bool.true_and, if_true]
  rw [foldl_natChars n 0]
  simp

/-- Modelled from the spec: render one signed tile-coordinate component
as a decimal numeral. -/
def intChars (i : Int) : List Char :=
  if i < 0 then '-' :: natChars i.natAbs else natChars i.natAbs

/-- Modelled from the spec: parse one signed decimal numeral. -/
def parseIntChars (cs : List Char) : Option Int :=
  if cs.head? = some '-' then (parseNatChars cs.tail).map (fun n : Nat => -(n : Int))
  else (parseNatChars cs).map (fun n : Nat => (n : Int))

theorem parseIntChars_intChars (i : Int) : parseIntChars (intChars i) = some i := by
  rw [intChars]
  by_cases h : i < 0
  · rw [if_pos h, parseIntChars]
    simp only [List.head?_cons, if_pos rfl, List.tail_cons, parseNatChars_natChars]
    have hca : ((i.natAbs : Nat) : Int) = -i := by omega
    simp [hca]
  · rw [if_neg h, parseIntChars]
    have hne : ¬ (natChars i.natAbs).head? = some '-' := by
      cases hcs : natChars i.natAbs with
      | nil => exact absurd hcs (natChars_ne_nil _)
      | cons c cs =>
        have hd : isDigitC c = true :=
          natChars_all_digits i.natAbs c (by rw [hcs]; exact List.mem_cons_self c cs)
        rw [List.head?_cons]
        intro hsome
        injection hsome with hc
        rw [hc] at hd
        exact absurd hd (by decide)
    rw [if_neg hne, parseNatChars_natChars]
    have hca : ((i.natAbs : Nat) : Int) = i := by omega
    simp [hca]

/-- Split a character list at every occurrence of `sep`. -/
def splitOnChar (sep : Char) : List Char → List (List Char)
  | [] => [[]]
  | c :: cs =>
    let r := splitOnChar sep cs
    if c = sep then [] :: r else (c :: r.headD []) :: r.tail

theorem splitOnChar_ne_nil (sep : Char) : ∀ cs, splitOnChar sep cs ≠ [] := by
  intro cs
  induction cs with
  | nil => exact List.cons_ne_nil _ _
  | cons c cs ih =>
    rw [splitOnChar]
    by_cases hc : c = sep
    · simp only [if_pos hc]
      exact List.cons_ne_nil _ _
    · simp only [if_neg hc]
      exact List.cons_ne_nil _ _

theorem splitOnChar_no_sep (sep : Char) :
    ∀ cs, (∀ c ∈ cs, c ≠ sep) → splitOnChar sep cs = [cs] := by
  intro cs
  induction cs with
  | nil => intro _; rfl
  | cons c cs ih =>
    intro h
    rw [splitOnChar, ih (fun c2 h2 => h c2 (List.mem_cons_of_mem c h2))]
    simp only [if_neg (h c (List.mem_cons_self c cs)), List.headD_cons, List.tail_cons]

theorem splitOnChar_append (sep : Char) :
    ∀ (xs ys : List Char), (∀ c ∈ xs, c ≠ sep) →
    splitOnChar sep (xs ++ sep :: ys) = xs :: splitOnChar sep ys := by
  intro xs
  induction xs with
  | nil =>
    intro ys _
    rw [List.nil_append, splitOnChar]
    simp
  | cons x xs ih =>
    intro ys h
    rw [List.cons_append, splitOnChar,
      ih ys (fun c2 h2 => h c2 (List.mem_cons_of_mem x h2))]
    simp only [if_neg (h x (List.mem_cons_self x xs)), List.headD_cons, List.tail_cons]

/-- Modelled from the spec: `toKey(z, x, y)` is the string
`z + "/" + x + "/" + y` (here as its character list). -/
def toKey (z x y : Int) : List Char :=
  intChars z ++ ('/' :: (intChars x ++ ('/' :: intChars y)))

/-- Modelled from the spec: `fromKey` is the exact inverse of `toKey`
and fails (`MalformedKey`, here `none`) on structurally invalid input:
anything that is not three `/`-separated signed decimal numerals. -/
def fromKey (cs : List Char) : Option (Int × Int × Int) :=
  match splitOnChar '/' cs with
  | [a, b, c] =>
    match parseIntChars a, parseIntChars b, parseIntChars c with
    | some z, some x, some y => some (z, x, y)
    | _, _, _ => none
  | _ => none

theorem intChars_no_slash (i : Int) : ∀ c ∈ intChars i, c ≠ '/' := by
  have hdig : ∀ c, isDigitC c = true → c ≠ '/' := by
    intro c h he
    rw [he] at h
    exact absurd h (by decide)
  intro c hc
  rw [intChars] at hc
  by_cases h : i < 0
  · rw [if_pos h] at hc
    rcases List.mem_cons.mp hc with h1 | h1
    · subst h1; decide
    · exact hdig c (natChars_all_digits _ c h1)
  · rw [if_neg h] at hc
    exact hdig c (natChars_all_digits _ c hc)

theorem fromKey_toKey (z x y : Int) : fromKey (toKey z x y) = some (z, x, y) := by
  rw [toKey, fromKey, splitOnChar_append '/' _ _ (intChars_no_slash z),
    splitOnChar_append '/' _ _ (intChars_no_slash x),
    splitOnChar_no_sep '/' _ (intChars_no_slash y)]
  simp [parseIntChars_intChars]

/-- Claim C5: `fromKey(toKey(z, x, y)) = (z, x, y)` for every triple
with `z ≥ 0` (negative `x`/`y` included); `toKey` is injective; and
`fromKey` fails on structurally invalid keys (a two-component key and a
key with a non-numeric component). -/
theorem tile_key_codec :
    (∀ (z x y : Int), 0 ≤ z → fromKey (toKey z x y) = some (z, x, y))
      ∧ (∀ (z x y z2 x2 y2 : Int), toKey z x y = toKey z2 x2 y2
          → z = z2 ∧ x = x2 ∧ y = y2)
      ∧ fromKey ['0', '/', '1'] = none
      ∧ fromKey ['1', '/', '2', '/', 'a'] = none := by
  refine ⟨fun z x y _ => fromKey_toKey z x y, ?_, by decide, by decide⟩
  intro z x y z2 x2 y2 h
  have h2 : fromKey (toKey z x y) = fromKey (toKey z2 x2 y2) := by rw [h]
  rw [fromKey_toKey, fromKey_toKey] at h2
  injection h2 with h3
  exact ⟨congrArg Prod.fst h3, congrArg (fun t => t.2.1) h3, congrArg (fun t => t.2.2) h3⟩

/-- Witness for `tile_key_codec` at `(3, -2, 5)`. -/
theorem tile_key_codec_witness :
    (0 : Int) ≤ 3 ∧ fromKey (toKey 3 (-2) 5) = some (3, -2, 5) :=
  ⟨by decide, tile_key_codec.1 3 (-2) 5 (by decide)⟩

/- ### Claim C4: resource load state machine (modelled from the spec) -/

/-- Load states of an async raster resource. -/
inductive LoadState
  | IDLE
  | LOADING
  | LOADED
  | ERROR
  | EMPTY
  deriving Repr, DecidableEq

/-- A resource with its state and the number of pending `change`
listeners registered by the renderer. -/
structure Resource where
  state : LoadState
  listeners : Nat
  deriving Repr, DecidableEq

/-- Modelled from the spec: `ensureLoaded` (`loadImage`) from
`ol/renderer/Layer.js`, which is not among the provided sources. On
LOADED (or EMPTY) it returns `true` with no side effect; on IDLE it
registers one `change` listener, triggers the load (state becomes
LOADING) and returns `false`; on LOADING it returns `false` without
registering a second listener; on ERROR it returns `false` and never
retries. -/
def loadImage (r : Resource) : Bool × Resource :=
  match r.state with
  | .LOADED => (true, r)
  | .EMPTY => (true, r)
  | .IDLE => (false, ⟨.LOADING, r.listeners + 1⟩)
  | .LOADING => (false, r)
  | .ERROR => (false, r)

/-- Claim C4: on an IDLE resource `loadImage` returns `false` and
registers exactly one listener (the state becoming LOADING); calling it
again in state LOADING returns `false` and registers no additional
listener; on a LOADED resource it returns `true` and registers no
listener. -/
theorem loadImage_listener_dedup (r : Resource) (h : r.state = .IDLE)
    (h0 : r.listeners = 0) :
    (loadImage r).1 = false
      ∧ (loadImage r).2.state = .LOADING
      ∧ (loadImage r).2.listeners = 1
      ∧ (loadImage (loadImage r).2).1 = false
      ∧ (loadImage (loadImage r).2).2.listeners = 1
      ∧ ∀ r2 : Resource, r2.state = .LOADED → loadImage r2 = (true, r2) := by
  have hr : loadImage r = (false, ⟨.LOADING, r.listeners + 1⟩) := by
    rw [loadImage, h]
  refine ⟨by rw [hr], by rw [hr], by rw [hr, h0], ?_, ?_, ?_⟩
  · rw [hr, loadImage]
  · rw [hr, loadImage, h0]
  · intro r2 h2
    rw [loadImage, h2]

/-- Witness for `loadImage_listener_dedup` at a fresh IDLE resource. -/
theorem loadImage_listener_dedup_witness :
    ((⟨.IDLE, 0⟩ : Resource).state = .IDLE ∧ (⟨.IDLE, 0⟩ : Resource).listeners = 0)
      ∧ ((loadImage ⟨.IDLE, 0⟩).1 = false
        ∧ (loadImage ⟨.IDLE, 0⟩).2.state = .LOADING
        ∧ (loadImage ⟨.IDLE, 0⟩).2.listeners = 1
        ∧ (loadImage (loadImage ⟨.IDLE, 0⟩).2).1 = false
        ∧ (loadImage (loadImage ⟨.IDLE, 0⟩).2).2.listeners = 1
        ∧ ∀ r2 : Resource, r2.state = .LOADED → loadImage r2 = (true, r2)) :=
  ⟨⟨rfl, rfl⟩, loadImage_listener_dedup ⟨.IDLE, 0⟩ rfl rfl⟩

/- ### Claims C6 and C7: tile cache (modelled from the spec) -/

/-- A cache key: a tile coordinate key string. -/
abbrev CacheKey : Type := List Char

/-- Modelled from the spec: the cache is a bounded map whose entry list
is kept in recency order, first entry most recently set/touched, last
entry the next eviction candidate. Values are opaque resource ids. -/
abbrev Cache : Type := List (CacheKey × Nat)

/-- Modelled from the spec: `set(key, resource)` inserts or replaces;
the newly set entry becomes the first (most recently touched) entry. -/
def cacheSet (c : Cache) (k : CacheKey) (v : Nat) : Cache :=
  (k, v) :: c.filter (fun e => e.1 ≠ k)

/-- Set a list of entries in order. -/
def cacheSetAll (c : Cache) (kvs : List (CacheKey × Nat)) : Cache :=
  kvs.foldl (fun c2 kv => cacheSet c2 kv.1 kv.2) c

/-- The `peekFirstKey()` operation: key of the most recently touched entry, failing
(`EmptyCache`, here `none`) on an empty cache. -/
def peekFirstKey (c : Cache) : Option CacheKey := c.head?.map Prod.fst

/-- Modelled from the spec: the eviction walk of `prune`. `rev` is the
entry list least-recently-touched first; `kept` counts walked entries
that were retained. While the cache size (`kept` plus the unwalked
remainder) exceeds `lowWaterMark`, the walk evicts the
least-recently-touched entry unless its key is in `active`, which it
skips (retains). -/
def pruneWalk (active : List CacheKey) (lwm : Nat) : Nat → List (CacheKey × Nat) → List (CacheKey × Nat)
  | _, [] => []
  | kept, e :: rest =>
    if kept + (e :: rest).length ≤ lwm then e :: rest
    else if e.1 ∈ active then e :: pruneWalk active lwm (kept + 1) rest
    else pruneWalk active lwm kept rest

/-- Modelled from the spec: `prune(activeKeys, highWaterMark,
lowWaterMark)` performs no eviction at all unless the entry count
exceeds `highWaterMark`; otherwise it walks from the
least-recently-touched end, evicting non-active entries until the count
is at most `lowWaterMark`. -/
def prune (c : Cache) (active : List CacheKey) (hwm lwm : Nat) : Cache :=
  if c.length ≤ hwm then c else (pruneWalk active lwm 0 c.reverse).reverse

/-- Modelled from the spec: `expireCache(activeKeys)` is the per-frame
wrapper around `prune` with the current watermarks. -/
def expireCache (c : Cache) (active : List CacheKey) (hwm lwm : Nat) : Cache :=
  prune c active hwm lwm

theorem pruneWalk_no_active (lwm : Nat) :
    ∀ (r : List (CacheKey × Nat)) (kept : Nat),
    pruneWalk [] lwm kept r = r.drop (kept + r.length - lwm) := by
  intro r
  induction r with
  | nil => intro kept; simp [pruneWalk]
  | cons e rest ih =>
    intro kept
    rw [pruneWalk]
    by_cases hle : kept + (e :: rest).length ≤ lwm
    · rw [if_pos hle]
      have h0 : kept + (e :: rest).length - lwm = 0 := by omega
      rw [h0, List.drop_zero]
    · rw [if_neg hle]
      have hnm : (e.1 ∈ ([] : List CacheKey)) = False := by simp
      simp only [hnm, if_false]
      rw [ih kept]
      have hs : kept + (e :: rest).length - lwm = (kept + rest.length - lwm) + 1 := by
        simp only [List.length_cons] at hle ⊢
        omega
      rw [hs, List.drop_succ_cons]

theorem pruneWalk_mem_active (active : List CacheKey) (lwm : Nat) (e : CacheKey × Nat)
    (ha : e.1 ∈ active) :
    ∀ (r : List (CacheKey × Nat)) (kept : Nat), e ∈ r → e ∈ pruneWalk active lwm kept r := by
  intro r
  induction r with
  | nil => intro kept h; simp at h
  | cons f rest ih =>
    intro kept h
    rw [pruneWalk]
    by_cases hle : kept + (f :: rest).length ≤ lwm
    · rw [if_pos hle]; exact h
    · rw [if_neg hle]
      rcases List.mem_cons.mp h with h1 | h1
      · subst h1
        rw [if_pos ha]
        exact List.mem_cons_self _ _
      · by_cases hf : f.1 ∈ active
        · rw [if_pos hf]
          exact List.mem_cons_of_mem f (ih (kept + 1) h1)
        · rw [if_neg hf]
          exact ih kept h1

theorem pruneWalk_sublist (active : List CacheKey) (lwm : Nat) :
    ∀ (r : List (CacheKey × Nat)) (kept : Nat), (pruneWalk active lwm kept r).Sublist r := by
  intro r
  induction r with
  | nil => intro kept; rw [pruneWalk]
  | cons f rest ih =>
    intro kept
    rw [pruneWalk]
    by_cases hle : kept + (f :: rest).length ≤ lwm
    · rw [if_pos hle]
    · rw [if_neg hle]
      by_cases hf : f.1 ∈ active
      · rw [if_pos hf]
        exact List.Sublist.cons₂ f (ih (kept + 1))
      · rw [if_neg hf]
        exact List.Sublist.cons f (ih kept)

/-- Claim C7: `prune` performs no eviction at all while the entry count
is at most `highWaterMark`; the surviving entries are always a
subsequence (eviction only removes entries, preserving recency order);
an entry whose key is in `activeKeys` is never evicted; and with no
active-key protection the result is exactly the `lowWaterMark` most
recently touched entries — the evicted ones are exactly the
least-recently-touched. -/
theorem prune_watermarks :
    (∀ (c : Cache) (active : List CacheKey) (hwm lwm : Nat),
      c.length ≤ hwm → prune c active hwm lwm = c)
      ∧ (∀ (c : Cache) (active : List CacheKey) (hwm lwm : Nat),
        (prune c active hwm lwm).Sublist c)
      ∧ (∀ (c : Cache) (active : List CacheKey) (hwm lwm : Nat) (e : CacheKey × Nat),
        e ∈ c → e.1 ∈ active → e ∈ prune c active hwm lwm)
      ∧ (∀ (c : Cache) (hwm lwm : Nat), hwm < c.length →
        prune c [] hwm lwm = c.take lwm) := by
  refine ⟨?_, ?_, ?_, ?_⟩
  · intro c active hwm lwm h
    rw [prune, if_pos h]
  · intro c active hwm lwm
    rw [prune]
    by_cases h : c.length ≤ hwm
    · rw [if_pos h]
    · rw [if_neg h]
      have := (pruneWalk_sublist active lwm c.reverse 0).reverse
      rwa [List.reverse_reverse] at this
  · intro c active hwm lwm e he ha
    rw [prune]
    by_cases h : c.length ≤ hwm
    · rw [if_pos h]; exact he
    · rw [if_neg h]
      rw [List.mem_reverse]
      exact pruneWalk_mem_active active lwm e ha c.reverse 0 (List.mem_reverse.mpr he)
  · intro c hwm lwm h
    rw [prune, if_neg (by omega), pruneWalk_no_active lwm c.reverse 0]
    simp only [List.length_reverse, Nat.zero_add]
    rw [← List.rdrop_eq_reverse_drop_reverse, List.rdrop]
    by_cases hl : lwm ≤ c.length
    · have h2 : c.length - (c.length - lwm) = lwm := by omega
      rw [h2]
    · have h1 : c.length - (c.length - lwm) = c.length := by omega
      rw [h1, List.take_length, List.take_of_length_le (by omega)]

/-- Witness for `prune_watermarks`: below the high watermark nothing is
evicted; above it, with no active keys, exactly the two least recently
touched of four entries are evicted. -/
theorem prune_watermarks_witness :
    (([(['a'], 1), (['b'], 2)] : Cache).length ≤ 3
      ∧ prune [(['a'], 1), (['b'], 2)] [['a']] 3 1 = [(['a'], 1), (['b'], 2)])
      ∧ (3 < ([(['a'], 1), (['b'], 2), (['c'], 3), (['d'], 4)] : Cache).length
        ∧ prune [(['a'], 1), (['b'], 2), (['c'], 3), (['d'], 4)] [] 3 2
            = ([(['a'], 1), (['b'], 2), (['c'], 3), (['d'], 4)] : Cache).take 2) :=
  ⟨⟨by decide, prune_watermarks.1 [(['a'], 1), (['b'], 2)] [['a']] 3 1 (by decide)⟩,
    ⟨by decide, prune_watermarks.2.2.2 [(['a'], 1), (['b'], 2), (['c'], 3), (['d'], 4)] 3 2
      (by decide)⟩⟩

theorem cacheSetAll_head : ∀ (kvs : List (CacheKey × Nat)) (c : Cache), kvs ≠ [] →
    ∃ rest, cacheSetAll c kvs = kvs.getLastD ([], 0) :: rest := by
  intro kvs
  induction kvs with
  | nil => intro c h; exact absurd rfl h
  | cons kv kvs ih =>
    intro c _
    cases kvs with
    | nil =>
      refine ⟨c.filter (fun e => e.1 ≠ kv.1), ?_⟩
      show cacheSet c kv.1 kv.2 = _
      rw [cacheSet, List.getLastD_cons]
      rfl
    | cons kv2 kvs2 =>
      obtain ⟨rest, hr⟩ := ih (cacheSet c kv.1 kv.2) (List.cons_ne_nil kv2 kvs2)
      refine ⟨rest, ?_⟩
      show cacheSetAll (cacheSet c kv.1 kv.2) (kv2 :: kvs2) = _
      rw [hr, List.getLastD_cons, List.getLastD_cons, List.getLastD_cons]

theorem pruneWalk_last_active (active : List CacheKey) (lwm : Nat)
    (e : CacheKey × Nat) (ha : e.1 ∈ active) :
    ∀ (xs : List (CacheKey × Nat)) (kept : Nat),
    ∃ w, pruneWalk active lwm kept (xs ++ [e]) = w ++ [e] := by
  intro xs
  induction xs with
  | nil =>
    intro kept
    rw [List.nil_append, pruneWalk]
    by_cases hle : kept + [e].length ≤ lwm
    · exact ⟨[], by rw [if_pos hle]; rfl⟩
    · refine ⟨[], ?_⟩
      rw [if_neg hle, if_pos ha, pruneWalk]
      rfl
  | cons f xs ih =>
    intro kept
    rw [List.cons_append, pruneWalk]
    by_cases hle : kept + (f :: (xs ++ [e])).length ≤ lwm
    · exact ⟨f :: xs, by rw [if_pos hle, List.cons_append]⟩
    · by_cases hf : f.1 ∈ active
      · obtain ⟨w, hw⟩ := ih (kept + 1)
        exact ⟨f :: w, by rw [if_neg hle, if_pos hf, hw, List.cons_append]⟩
      · obtain ⟨w, hw⟩ := ih kept
        exact ⟨w, by rw [if_neg hle, if_neg hf, hw]⟩

theorem prune_head_active (e : CacheKey × Nat) (rest : List (CacheKey × Nat))
    (active : List CacheKey) (hwm lwm : Nat) (ha : e.1 ∈ active) :
    ∃ r2, prune (e :: rest) active hwm lwm = e :: r2 := by
  rw [prune]
  by_cases h : (e :: rest).length ≤ hwm
  · exact ⟨rest, by rw [if_pos h]⟩
  · obtain ⟨w, hw⟩ := pruneWalk_last_active active lwm e ha rest.reverse 0
    refine ⟨w.reverse, ?_⟩
    rw [if_neg h, List.reverse_cons, hw, List.reverse_append]
    rfl

/-- Claim C6: after populating the cache and then setting the new
frame's tiles (the last one a tile of the new zoom level, present in
the frame's active keys), `expireCache` never evicts the most recently
touched entry, so `peekFirstKey()` returns its key, which decodes to
the new zoom level. -/
theorem zoom_change_first_key (c0 : Cache) (kvs : List (CacheKey × Nat))
    (active : List CacheKey) (hwm lwm : Nat) (z x y : Int)
    (hne : kvs ≠ [])
    (hlast : fromKey (kvs.getLastD ([], 0)).1 = some (z, x, y))
    (hact : (kvs.getLastD ([], 0)).1 ∈ active) :
    peekFirstKey (expireCache (cacheSetAll c0 kvs) active hwm lwm)
        = some (kvs.getLastD ([], 0)).1
      ∧ fromKey (kvs.getLastD ([], 0)).1 = some (z, x, y) := by
  obtain ⟨rest, hr⟩ := cacheSetAll_head kvs c0 hne
  obtain ⟨r2, hp⟩ := prune_head_active _ rest active hwm lwm hact
  rw [expireCache, hr, hp, peekFirstKey]
  exact ⟨rfl, hlast⟩

/-- Witness for `zoom_change_first_key`: a zoom-0 cache, two zoom-4
tiles set for the new frame, zoom-4 active keys; the first key decodes
to `z = 4`. -/
theorem zoom_change_first_key_witness :
    peekFirstKey (expireCache
        (cacheSetAll [(toKey 0 0 0, 0)] [(toKey 4 0 0, 1), (toKey 4 1 0, 2)])
        [toKey 4 0 0, toKey 4 1 0] 2 1)
      = some (toKey 4 1 0)
      ∧ fromKey (toKey 4 1 0) = some (4, 1, 0) :=
  zoom_change_first_key [(toKey 0 0 0, 0)] [(toKey 4 0 0, 1), (toKey 4 1 0, 2)]
    [toKey 4 0 0, toKey 4 1 0] 2 1 4 1 0
    (List.cons_ne_nil _ _) (fromKey_toKey 4 1 0)
    (List.Mem.tail _ (List.Mem.head _))

end OL
